import Mathlib

/-!
Verification development for the marketplace parsing service.

The definitions below are shallow embeddings of the Python source:

* `src/domain/entities/product.py` — the `Product` and `Feedback` records;
* `src/infrastructure/parsers/wb_parser.py` — the paginated search
  orchestrator (`search_products`), the supplier-catalog retry loop
  (`get_products_by_supplier_id`), the single-product lookup
  (`get_product_by_link`), the feedback pagination loop (`get_feedbacks`)
  and the page decoder (`_parse_products`);
* `src/infrastructure/cache/redis_cache.py` — `CacheService.set`;
* `src/domain/use_cases/search_products_by_link.py` — the comparator;
* `src/domain/use_cases/price_range.py` — `calculate_price_distribution`.

Modelling conventions:

* Python floats are modelled as rationals (`ℚ`); Python ints as `Int`
  (page numbers and counts, which are always non-negative, as `ℕ`).
* A fallible Python call is modelled as a function returning `Option`
  or `Except Unit`; raising an exception is the `Except.error` case.
* Python `sorted` is a stable sort; it is modelled by `List.insertionSort`
  with a non-strict total preorder, which computes the unique stable
  sorting of the list for that key.
* The orchestrators run page fetches concurrently (`asyncio.wait` with
  `FIRST_COMPLETED`) and the set of results harvested from one batch
  depends on the event-loop schedule.  The embedding fixes the canonical
  race-free schedule in which every task of a batch has completed when
  the first wait returns and the completed set is traversed in page
  order (task creation order); the spec brackets race interleavings
  explicitly, so claims are settled under this schedule.
* Cache lookups are modelled by an explicit parameter holding what the
  cache returns; the claims about the orchestrators assume a cold cache
  (the lookup misses), so the cache read is omitted from their models
  and treated separately for the cache-specific claims.
-/

namespace WB

/-- The `Product` pydantic entity (`src/domain/entities/product.py`).
`link` is kept as a plain string; `rating` defaults to 0 when absent
upstream; `root` is `Optional[int]` and may be missing (`none`). -/
structure Product where
  id : Int
  name : String
  price : ℚ
  rating : ℚ
  link : String
  feedbacks : Int
  subjectId : Int
  root : Option Int
deriving DecidableEq, Repr

/-- Python truthiness of an `Optional[int]` value: `None` and `0` are falsy. -/
def pyFalsyInt : Option Int → Bool
  | none => true
  | some n => decide (n = 0)

/-- Key order used by `sorted(..., key=lambda x: x.rating, reverse=True)`:
descending by rating. -/
def ratingGe (a b : Product) : Prop := b.rating ≤ a.rating

/-- Key order used by `sorted(..., key=lambda x: x.price)`: ascending by price. -/
def priceLe (a b : Product) : Prop := a.price ≤ b.price

instance : DecidableRel ratingGe := fun a b => inferInstanceAs (Decidable (b.rating ≤ a.rating))

instance : DecidableRel priceLe := fun a b => inferInstanceAs (Decidable (a.price ≤ b.price))

instance : IsTotal Product ratingGe := ⟨fun a b => le_total b.rating a.rating⟩

instance : IsTrans Product ratingGe := ⟨fun _ _ _ h h' => le_trans h' h⟩

instance : IsTotal Product priceLe := ⟨fun a b => le_total a.price b.price⟩

instance : IsTrans Product priceLe := ⟨fun _ _ _ h h' => le_trans h h'⟩

/-- Stable descending-by-rating sort, the model of
`sorted(all_products, key=lambda x: x.rating, reverse=True)`. -/
def sortByRatingDesc (l : List Product) : List Product :=
  List.insertionSort ratingGe l

/-- Outcome of one `_fetch_page` call: a decoded record list (possibly
empty), or a raised `ParserError` (HTTP error or decode failure). -/
inductive FetchOutcome where
  | page (records : List Product)
  | failure
deriving DecidableEq

/-- Body of `fetch_page_with_semaphore` in `WBParser.search_products` (lines 36-44):
a `ParserError` is caught, logged and turned into an empty record list. -/
def fetch_page_with_semaphore (fetch : ℕ → FetchOutcome) (p : ℕ) : List Product :=
  match fetch p with
  | .page rs => rs
  | .failure => []

/-- Python `range(start, stop, step)` for a positive step. -/
def pyRange (start stop step : ℕ) : List ℕ :=
  List.range' start ((stop - start + step - 1) / step) step

/-- The batch windows of `search_products` (lines 46-51): the outer loop is
`range(1, max_pages + 1, 10)` and each batch covers
`range(batch_start, min(batch_start + 9, max_pages + 1))` — note the
`+ 9` against an exclusive upper bound, so a window holds at most 9 pages. -/
def searchBatches (maxPages : ℕ) : List (List ℕ) :=
  (pyRange 1 (maxPages + 1) 10).map (fun bs => pyRange bs (min (bs + 9) (maxPages + 1)) 1)

/-- Processing of the completed tasks of one batch (lines 54-67) under the
canonical schedule: results are consumed in page order; an empty record
list triggers early termination (`true` flag), otherwise the records are
appended to the accumulator. -/
def processBatch (fetch : ℕ → FetchOutcome) : List ℕ → List Product → List Product × Bool
  | [], acc => (acc, false)
  | p :: rest, acc =>
    let rs := fetch_page_with_semaphore fetch p
    if rs.isEmpty then (acc, true)
    else processBatch fetch rest (acc ++ rs)

/-- The outer batch loop of `search_products`: on early termination the
accumulated records are sorted descending by rating and returned at once;
otherwise the next batch is processed, and after the last batch the same
sorted aggregate is returned (lines 46-76). -/
def processBatches (fetch : ℕ → FetchOutcome) : List (List ℕ) → List Product → List Product
  | [], acc => sortByRatingDesc acc
  | b :: bs, acc =>
    let res := processBatch fetch b acc
    if res.2 then sortByRatingDesc res.1 else processBatches fetch bs res.1

/-- Value of `Settings.max_pages` (`src/config/settings.py`). -/
def max_pages_setting : ℕ := 10000

/-- Model of `WBParser.search_products` on a cold cache, parameterised by the
page-fetch behaviour.  `pages` is clamped by the settings ceiling
(line 32); the cache write on return is modelled separately. -/
def search_products (fetch : ℕ → FetchOutcome) (pages : ℕ) : List Product :=
  processBatches fetch (searchBatches (min pages max_pages_setting)) []

/-- The 0.6 second pacing / backoff step of the supplier-catalog fetch. -/
def backoffStep : ℚ := 6 / 10

/-- Number of attempts, `retries = 30`, in `get_products_by_supplier_id`. -/
def supplier_retries : ℕ := 30

/-- The retry loop body of `fetch_page_with_semaphore` in
`WBParser.get_products_by_supplier_id` (lines 202-221).  `out attempt`
is the outcome of `_fetch_supplier_page` on that attempt (`none` means
a raised `ParserError`).  The result is the record list the page
contributes, paired with the list of `asyncio.sleep` durations in order:
after a successful attempt a pacing sleep of 0.6s happens; after a failed
attempt `attempt + 1` (0-based) and while more attempts remain, a backoff
sleep of `0.6 * (attempt + 1)` happens.  `fuel` counts the attempts left,
starting at `retries`. -/
def supplierRetryGo (out : ℕ → Option (List Product)) : ℕ → ℕ → List Product × List ℚ
  | 0, _ => ([], [])
  | fuel + 1, attempt =>
    match out attempt with
    | some ps => (ps, [backoffStep])
    | none =>
      if fuel = 0 then ([], [])
      else
        let r := supplierRetryGo out fuel (attempt + 1)
        (r.1, backoffStep * (attempt + 1) :: r.2)

/-- One supplier-catalog page fetch with the full retry policy
(`retries = 30`, attempts numbered from 0). -/
def fetch_supplier_page_with_semaphore (out : ℕ → Option (List Product)) :
    List Product × List ℚ :=
  supplierRetryGo out supplier_retries 0

/-- One insertion step of the Python dict comprehension keyed by `p.id`
over `cheap_products + expensive_products`: if the key is already present
its value is overwritten in place (the key keeps its original position);
otherwise the pair is appended. -/
def dictInsert (m : List (Int × Product)) (p : Product) : List (Int × Product) :=
  if p.id ∈ m.map Prod.fst then
    m.map (fun kv => if kv.1 = p.id then (kv.1, p) else kv)
  else m ++ [(p.id, p)]

/-- The candidate-pool deduplication of `SearchProductsByLinkUseCase.execute`
(line 29): the values of the dict comprehension keyed by product id, as
a list. -/
def dedupById (l : List Product) : List Product :=
  (l.foldl dictInsert []).map Prod.snd

/-- The ids of `l` in order of first occurrence (the insertion order of the
keys of the Python dict). -/
def firstOccIds : List Int → List Int
  | [] => []
  | i :: rest => i :: (firstOccIds rest).filter (fun j => decide (j ≠ i))

/-- The last product of `l` carrying id `i`, if any (the value a Python dict
comprehension retains for key `i`). -/
def lastWithId (l : List Product) (i : Int) : Option Product :=
  (l.filter (fun p => decide (p.id = i))).getLast?

/-- The first product of `l` carrying id `i`, if any. -/
def firstWithId (l : List Product) (i : Int) : Option Product :=
  (l.filter (fun p => decide (p.id = i))).head?

/-- Threshold `min_feedbacks = 0` in `SearchProductsByLinkUseCase.execute`. -/
def min_feedbacks : Int := 0

/-- The comparison stage of `SearchProductsByLinkUseCase.execute`
(lines 29-51), given the already-fetched reference product and the two
search result lists.  Returns the `better_price` and `better_rating`
lists.  Python's `product.price * 0.1` is modelled exactly as a rational. -/
def execute_by_link (product : Product) (cheap expensive : List Product) :
    List Product × List Product :=
  let all_products := dedupById (cheap ++ expensive)
  let min_price_threshold := product.price * (1 / 10)
  let better_price := all_products.filter (fun p =>
    decide (p.price ≤ product.price ∧ min_price_threshold ≤ p.price ∧
      min_feedbacks ≤ p.feedbacks ∧ p.subjectId = product.subjectId ∧ p.id ≠ product.id))
  let better_rating := all_products.filter (fun p =>
    decide (product.rating ≤ p.rating ∧ min_price_threshold ≤ p.price ∧
      min_feedbacks ≤ p.feedbacks ∧ p.subjectId = product.subjectId ∧ p.id ≠ product.id))
  ((List.insertionSort priceLe better_price).take 3,
   (List.insertionSort ratingGe better_rating).take 3)

/-- A raw price object inside an item's first size, as read by
`price_data.get("product", price_data.get("total", 0))`.  A `none` field
models an absent key. -/
structure RawPrice where
  product : Option Int
  total : Option Int
deriving DecidableEq

/-- One element of an item's `sizes` array; only its `price` key is read. -/
structure RawSize where
  price : Option RawPrice
deriving DecidableEq

/-- One raw JSON item of a products page, restricted to the keys
`_parse_products` reads.  A `none` field models an absent key; present
fields are assumed well-typed (the JSON type the decoder expects). -/
structure RawItem where
  id : Option Int
  sizes : Option (List RawSize)
  name : Option String
  reviewRating : Option ℚ
  nmReviewRating : Option ℚ
  rating : Option ℚ
  feedbacks : Option Int
  subjectId : Option Int
  root : Option Int
deriving DecidableEq

/-- The value found under a products key: either not a list (the
`isinstance` guard of line 379 fires) or a list of items. -/
inductive ProductsField where
  | notList
  | items (l : List RawItem)
deriving DecidableEq

/-- A raw products page.  `products` is the top-level `products` key;
`dataProducts` is the `products` key of the nested `data` object, with
`none` standing for either key being absent (both defaults collapse to
an empty list, line 378). -/
structure RawPage where
  products : Option ProductsField
  dataProducts : Option ProductsField
deriving DecidableEq

/-- Evaluation of `data.get("products", data.get("data", \x7b\x7d).get("products", []))`. -/
def effectiveProducts (page : RawPage) : ProductsField :=
  match page.products with
  | some f => f
  | none => page.dataProducts.getD (.items [])

/-- The item list the decoder iterates over (empty when the guard fires). -/
def pageItems (page : RawPage) : List RawItem :=
  match effectiveProducts page with
  | .notList => []
  | .items l => l

/-- Evaluation of `item.get("sizes", [\x7b\x7d])[0].get("price", \x7b\x7d)` (line 384).
When `sizes` is present but an empty list, the `[0]` subscript raises
`IndexError`. -/
def parsePriceData (item : RawItem) : Except Unit RawPrice :=
  match item.sizes with
  | none => .ok ⟨none, none⟩
  | some [] => .error ()
  | some (s :: _) => .ok (s.price.getD ⟨none, none⟩)

/-- The `Product` built from an item that passed the id check (lines 390-402),
given its id and already-computed price. -/
def mkProductFromItem (item : RawItem) (pid : Int) (price : ℚ) : Product :=
  { id := pid
    name := item.name.getD ("Unknown")
    price := price
    rating := item.reviewRating.getD (item.nmReviewRating.getD (item.rating.getD 0))
    link := "https://www.wildberries.ru/catalog/" ++ toString pid ++ "/detail.aspx"
    feedbacks := item.feedbacks.getD 0
    subjectId := item.subjectId.getD 0
    root := some (item.root.getD pid) }

/-- Decoding of one item (the loop body, lines 383-402): the price is read
first (possibly raising on an empty `sizes` list), then items whose `id`
is missing or Python-falsy are skipped. -/
def decodeItem (item : RawItem) : Except Unit (Option Product) := do
  let priceData ← parsePriceData item
  let price : ℚ := ((priceData.product.getD (priceData.total.getD 0) : Int) : ℚ) / 100
  match item.id with
  | none => return none
  | some pid =>
    if pid = 0 then return none
    else return some (mkProductFromItem item pid price)

/-- Decoding of the item list in order; an exception propagates out of the
whole loop. -/
def parseItems : List RawItem → Except Unit (List Product)
  | [] => .ok []
  | item :: rest => do
    let p? ← decodeItem item
    let ps ← parseItems rest
    match p? with
    | none => pure ps
    | some p => pure (p :: ps)

/-- Model of `WBParser._parse_products` (lines 376-403); the leading
underscore of the Python name is dropped. -/
def parse_products (page : RawPage) : Except Unit (List Product) :=
  match effectiveProducts page with
  | .notList => .ok []
  | .items l => parseItems l

/-- The successful decode of one item, for stating the decoder's contract:
items with a missing or zero id are skipped, all other items decode. -/
def decodedItem (item : RawItem) : Option Product :=
  match item.id with
  | none => none
  | some pid =>
    if pid = 0 then none
    else
      let priceData :=
        match item.sizes with
        | none => (⟨none, none⟩ : RawPrice)
        | some [] => ⟨none, none⟩
        | some (s :: _) => s.price.getD ⟨none, none⟩
      some (mkProductFromItem item pid (((priceData.product.getD (priceData.total.getD 0) : Int) : ℚ) / 100))

/-- Result of `WBParser.get_product_by_link`: the returned value, whether a
poisoned cache entry was deleted, and how many upstream detail requests
were issued. -/
structure LinkLookup where
  result : Except Unit Product
  evicted : Bool
  upstreamCalls : ℕ

/-- The fresh-fetch half of `get_product_by_link` (lines 96-133): one
upstream request (`none` models an HTTP error), decode, and the
no-product / no-root checks, each raising `ParserError`. -/
def freshProductFetch (upstream : Option RawPage) : Except Unit Product :=
  match upstream with
  | none => .error ()
  | some page =>
    match parse_products page with
    | .error _ => .error ()
    | .ok [] => .error ()
    | .ok (product :: _) =>
      if pyFalsyInt product.root then .error ()
      else .ok product

/-- The path of `get_product_by_link` taken once the cached value is not
returned: link-id extraction (`none` models an invalid link, which raises
before any request), then the single upstream fetch. -/
def freshPath (evicted : Bool) (linkId : Option Int) (upstream : Option RawPage) : LinkLookup :=
  match linkId with
  | none => ⟨.error (), evicted, 0⟩
  | some _ => ⟨freshProductFetch upstream, evicted, 1⟩

/-- Whether the signature of `CacheService.get` (redis_cache.py line 16,
declared with the parameter list `(self, key)`) accepts the keyword
argument named `model` that `WBParser.get_product_by_link` passes at
wb_parser.py line 80.  The parameter list holds no such name (and no
keyword catch-all), so a Python call binding this keyword raises
`TypeError` before the callee's body runs. -/
def cacheGetAcceptsModelKwarg : Bool :=
  decide (("model" : String) ∈ (["self", "key"] : List String))

/-- The behaviour `WBParser.get_product_by_link` would have from its cache
read on (lines 80-133) if the read returned `cached`: a non-empty cached
list is a hit, whose first record is returned unless its `root` is
Python-falsy, in which case the entry is deleted and a fresh fetch runs.
In the source this body is unreachable — see `get_product_by_link`. -/
def get_product_by_link_intended (cached : Option (List Product)) (linkId : Option Int)
    (upstream : Option RawPage) : LinkLookup :=
  match cached with
  | some (c :: _) =>
    if pyFalsyInt c.root then freshPath true linkId upstream
    else ⟨.ok c, false, 0⟩
  | _ => freshPath false linkId upstream

/-- Model of `WBParser.get_product_by_link` as written (lines 78-133).  The
cache read at line 80 is the call `cache_service.get(cache_key,
model=Product)`; since `CacheService.get` does not accept a `model`
keyword, the call raises `TypeError` unconditionally, outside any `try`
block, so the method fails with no eviction and no upstream request and
the rest of the body never runs.  `cached` stands for what the cache read
would return were the call well-formed. -/
def get_product_by_link (cached : Option (List Product)) (linkId : Option Int)
    (upstream : Option RawPage) : LinkLookup :=
  if cacheGetAcceptsModelKwarg then get_product_by_link_intended cached linkId upstream
  else ⟨.error (), false, 0⟩

/-- Behaviour of the cache store during `CacheService.set`: success, a
`redis.RedisError`, or any other exception (e.g. serialization). -/
inductive StoreWriteOutcome where
  | ok
  | redisError
  | otherError
deriving DecidableEq

/-- Model of `CacheService.set` (`src/infrastructure/cache/redis_cache.py`,
lines 30-38): a `redis.RedisError` is logged and swallowed (the function
returns normally), while any other exception is logged and re-raised. -/
def cache_set (key : String) (value : List Product) (ttl : ℕ)
    (store : StoreWriteOutcome) : Except Unit Unit :=
  match key, value, ttl, store with
  | _, _, _, .ok => .ok ()
  | _, _, _, .redisError => .ok ()
  | _, _, _, .otherError => .error ()

/-- The `Feedback` pydantic entity (`src/domain/entities/product.py`); the
timestamp is kept as its ISO string. -/
structure Feedback where
  id : String
  text : String
  pros : String
  cons : String
  rating : Int
  created_date : String
  user_name : Option String
  product_nm : Int
deriving DecidableEq

/-- Page cap `max_pages = 100` in `WBParser.get_feedbacks`. -/
def feedbacks_max_pages : ℕ := 100

/-- The pagination loop of `WBParser.get_feedbacks` (lines 149-172).
`pd page` is the outcome of fetching and decoding feedback page `page`:
`none` models a raised error (HTTP or decode), `some (fb, cnt)` the
decoded feedback list and the response's `feedbackCount` field.  Returns
the loop's outcome together with the number of pages fetched from `page`
on.  The loop stops on an empty page, when the accumulated count reaches
`cnt`, or when the incremented page number exceeds the cap. -/
def feedbacksLoop (pd : ℕ → Option (List Feedback × ℕ)) (page : ℕ) (acc : List Feedback) :
    Except Unit (List Feedback) × ℕ :=
  match pd page with
  | none => (.error (), 1)
  | some (fb, cnt) =>
    if fb.isEmpty then (.ok acc, 1)
    else
      if h : cnt ≤ (acc ++ fb).length ∨ feedbacks_max_pages < page + 1 then
        (.ok (acc ++ fb), 1)
      else
        let r := feedbacksLoop pd (page + 1) (acc ++ fb)
        (r.1, r.2 + 1)
termination_by feedbacks_max_pages - page
decreasing_by
  simp only [feedbacks_max_pages, not_or, not_lt] at h ⊢
  omega

/-- Model of the uncached part of `WBParser.get_feedbacks`: the loop starts
at page 1 with an empty accumulator. -/
def get_feedbacks (pd : ℕ → Option (List Feedback × ℕ)) : Except Unit (List Feedback) × ℕ :=
  feedbacksLoop pd 1 []

/-- Feedback records decoded from page `p` (empty when the page errors). -/
def fbPage (pd : ℕ → Option (List Feedback × ℕ)) (p : ℕ) : List Feedback :=
  ((pd p).getD ([], 0)).1

/-- Declared `feedbackCount` of page `p` (0 when the page errors). -/
def fbCount (pd : ℕ → Option (List Feedback × ℕ)) (p : ℕ) : ℕ :=
  ((pd p).getD ([], 0)).2

/-- Accumulated feedback records of pages 1..n. -/
def fbAccUpTo (pd : ℕ → Option (List Feedback × ℕ)) (n : ℕ) : List Feedback :=
  (List.range' 1 n).flatMap (fbPage pd)

/-- The loop stops after fetching page `n` exactly when: the page errored,
it decoded to no feedbacks, the accumulated count reached the page's
declared total, or the page cap was hit. -/
def fbStop (pd : ℕ → Option (List Feedback × ℕ)) (n : ℕ) : Prop :=
  pd n = none ∨ fbPage pd n = [] ∨ fbCount pd n ≤ (fbAccUpTo pd n).length ∨ n = 100

instance (pd : ℕ → Option (List Feedback × ℕ)) (n : ℕ) : Decidable (fbStop pd n) := by
  unfold fbStop; infer_instance

/-- Python `max(prices)` on a non-empty list (the empty case is junk; the
Python call raises there and the histogram is only invoked on non-empty
price lists). -/
def listMax : List ℚ → ℚ
  | [] => 0
  | x :: xs => xs.foldl max x

/-- The bucket width `step = (max_price + 100) / 5` of
`calculate_price_distribution`. -/
def distStep (prices : List ℚ) : ℚ := (listMax prices + 100) / 5

/-- The inner bucket search of `calculate_price_distribution` (lines 15-18):
the first `i` in `range(5)` with `i * step <= price < (i + 1) * step`
receives the price and the loop breaks; no bucket matching means the
price is dropped. -/
def bucketOf (step price : ℚ) : Option ℕ :=
  (List.range 5).find? (fun i => decide ((i : ℚ) * step ≤ price ∧ price < ((i : ℚ) + 1) * step))

/-- The counting loop of `calculate_price_distribution` (lines 14-18): each
price increments the counter of the first bucket containing it, prices
matching no bucket are dropped. -/
def distFold (step : ℚ) (init : List ℕ) (prices : List ℚ) : List ℕ :=
  prices.foldl (fun dist price =>
    match bucketOf step price with
    | some i => dist.set i (dist.getD i 0 + 1)
    | none => dist) init

/-- Model of `calculate_price_distribution` (`src/domain/use_cases/price_range.py`,
lines 9-20).  The five bucket counters are kept as a list of length 5 in
bucket order; the Python dict's five formatted-range keys are pairwise
distinct because the step is at least 20, so the counter list carries the
same information. -/
def calculate_price_distribution (prices : List ℚ) : List ℕ :=
  distFold (distStep prices) (List.replicate 5 0) prices

/-- Membership of a price in bucket `i`, as a Bool predicate. -/
def inBucket (step : ℚ) (i : ℕ) (price : ℚ) : Bool :=
  decide ((i : ℚ) * step ≤ price ∧ price < ((i : ℚ) + 1) * step)

/-! Concrete inputs used to evaluate the models on closed instances. -/

/-- A sample product whose id, rating and root equal the page number that
produced it. -/
def sampleProduct (n : ℕ) : Product :=
  { id := (n : ℤ), name := "", price := 1, rating := (n : ℚ), link := "",
    feedbacks := 0, subjectId := 0, root := some (n : ℤ) }

/-- A page-fetch behaviour where pages 1..10 each hold one record and
page 11 is the first empty page. -/
def fetchElevenEmpty : ℕ → FetchOutcome :=
  fun p => if p = 11 then .page [] else .page [sampleProduct p]

/-- A record served by page 1 of the failing-page scenario. -/
def prodOne : Product :=
  { id := 101, name := "", price := 1, rating := 1, link := "",
    feedbacks := 0, subjectId := 0, root := some 101 }

/-- A record served by page 3 of the failing-page scenario. -/
def prodThree : Product :=
  { id := 103, name := "", price := 1, rating := 3, link := "",
    feedbacks := 0, subjectId := 0, root := some 103 }

/-- A page-fetch behaviour where page 2 raises a transient failure while
pages 1 and 3 are non-empty. -/
def fetchTwoFails : ℕ → FetchOutcome :=
  fun p => if p = 2 then .failure else if p = 3 then .page [prodThree] else .page [prodOne]

/-- A supplier-page attempt behaviour failing on attempt 0 and succeeding
on attempt 1. -/
def supplierSecondTry : ℕ → Option (List Product) :=
  fun i => if i = 1 then some [prodOne] else none

/-- Two distinct records sharing the same id, in concatenation order. -/
def dupFirst : Product :=
  { id := 1, name := "first", price := 5, rating := 2, link := "",
    feedbacks := 0, subjectId := 0, root := some 1 }

/-- The later duplicate of `dupFirst`, differing in every non-key field. -/
def dupSecond : Product :=
  { id := 1, name := "second", price := 7, rating := 4, link := "",
    feedbacks := 1, subjectId := 0, root := some 1 }

/-- A cached record whose `root` is missing (a poisoned cache entry). -/
def cachedNoRoot : Product :=
  { id := 9, name := "", price := 1, rating := 1, link := "",
    feedbacks := 0, subjectId := 0, root := none }

/-- A raw item with a present id and no optional fields. -/
def goodItem : RawItem :=
  { id := some 7, sizes := none, name := some ("good"), reviewRating := none,
    nmReviewRating := none, rating := none, feedbacks := none,
    subjectId := none, root := some 77 }

/-- A raw item whose `sizes` key is present but an empty list: subscripting
it raises `IndexError` in the decoder. -/
def badSizesItem : RawItem :=
  { id := some 1, sizes := some [], name := none, reviewRating := none,
    nmReviewRating := none, rating := none, feedbacks := none,
    subjectId := none, root := none }

/-- A raw item whose id key is present but equal to 0 (Python-falsy). -/
def zeroIdItem : RawItem :=
  { id := some 0, sizes := none, name := none, reviewRating := none,
    nmReviewRating := none, rating := none, feedbacks := none,
    subjectId := none, root := none }

/-- A page holding only `goodItem`. -/
def goodPage : RawPage := { products := some (.items [goodItem]), dataProducts := none }

/-- A page holding only `badSizesItem`. -/
def badSizesPage : RawPage := { products := some (.items [badSizesItem]), dataProducts := none }

/-- A page holding only `zeroIdItem`. -/
def zeroIdPage : RawPage := { products := some (.items [zeroIdItem]), dataProducts := none }

/-! Theorems. -/

/-- A batch whose pages all fetch non-empty record lists is consumed
entirely, appending every page's records in page order. -/
theorem processBatch_complete (fetch : ℕ → FetchOutcome) (b : List ℕ) (acc : List Product)
    (h : ∀ p ∈ b, fetch_page_with_semaphore fetch p ≠ []) :
    processBatch fetch b acc = (acc ++ b.flatMap (fetch_page_with_semaphore fetch), false) := by
  induction b generalizing acc with
  | nil => simp [processBatch]
  | cons p rest ih =>
    have hp := h p (by simp)
    simp only [processBatch]
    rw [if_neg (by simpa [List.isEmpty_iff] using hp)]
    rw [ih _ (fun q hq => h q (by simp [hq]))]
    simp [List.append_assoc]

/-- A batch whose pages are non-empty up to the first page that yields an
empty record list stops there with the records accumulated so far. -/
theorem processBatch_stops (fetch : ℕ → FetchOutcome) (pre post : List ℕ) (j : ℕ)
    (acc : List Product)
    (hpre : ∀ p ∈ pre, fetch_page_with_semaphore fetch p ≠ [])
    (hj : fetch_page_with_semaphore fetch j = []) :
    processBatch fetch (pre ++ j :: post) acc =
      (acc ++ pre.flatMap (fetch_page_with_semaphore fetch), true) := by
  induction pre generalizing acc with
  | nil => simp [processBatch, hj]
  | cons p rest ih =>
    have hp := hpre p (by simp)
    simp only [List.cons_append, processBatch]
    rw [if_neg (by simpa [List.isEmpty_iff] using hp)]
    simp only [List.append_eq]
    rw [ih _ (fun q hq => hpre q (by simp [hq]))]
    simp [List.append_assoc]

/-- Fully non-empty leading batches are consumed without early termination,
accumulating all their records. -/
theorem processBatches_skip (fetch : ℕ → FetchOutcome) (done rest : List (List ℕ))
    (acc : List Product)
    (h : ∀ p ∈ done.flatten, fetch_page_with_semaphore fetch p ≠ []) :
    processBatches fetch (done ++ rest) acc =
      processBatches fetch rest (acc ++ done.flatten.flatMap (fetch_page_with_semaphore fetch)) := by
  induction done generalizing acc with
  | nil => simp
  | cons b bs ih =>
    simp only [List.cons_append, processBatches]
    rw [processBatch_complete fetch b acc (fun p hp => h p (by simp [hp]))]
    simp only [if_neg Bool.false_ne_true, List.append_eq]
    rw [ih _ (fun p hp => h p (by simp [hp]))]
    simp [List.append_assoc, List.flatMap_append]

/-- C1.  Evaluation of `search_products` at the failing input: pages 1..10
each fetch one record (`sampleProduct p`, rated `p`) and page 11 is the
first empty page, with a requested page count of 11 and a cold cache.
The claim (with `k = 11`) requires the union of the decoded records of
pages 1..10 sorted descending by rating.  The code never fetches page 10:
its batch windows are `range(1, 10)`, `range(11, 20)`, … (the window
upper bound is `batch_start + 9`, exclusive, against a stride of 10), so
the result holds the records of pages 1..9 only and `sampleProduct 10`
is missing. -/
theorem c1_page_ten_never_fetched :
    search_products fetchElevenEmpty 11 =
      [sampleProduct 9, sampleProduct 8, sampleProduct 7, sampleProduct 6, sampleProduct 5,
       sampleProduct 4, sampleProduct 3, sampleProduct 2, sampleProduct 1] ∧
    sampleProduct 10 ∉ search_products fetchElevenEmpty 11 := by
  decide

/-- C2, counterexample.  Page 2 raises a transient failure while pages 1
and 3 fetch non-empty record lists (`prodOne`, `prodThree`); the claim
says the failure does not trigger early termination and that page 3's
records are still included.  In fact the caught failure is converted to
an empty record list, which the batch loop treats as the empty-page
signal: the orchestrator returns only page 1's records and `prodThree`
is not in the aggregate. -/
theorem c2_counterexample :
    search_products fetchTwoFails 3 = [prodOne] ∧
    prodThree ∉ search_products fetchTwoFails 3 := by
  decide

/-- C2, amended.  In search mode a page whose fetch fails transiently
contributes zero records and is indistinguishable from an empty page, so
it does trigger early termination: if every page before `j` in processing
order fetches a non-empty record list and page `j` fails, the orchestrator
returns exactly the records of the pages processed before `j`, sorted
descending by rating; later pages contribute nothing. -/
theorem c2_failed_page_terminates_early (fetch : ℕ → FetchOutcome) (pages : ℕ)
    (done : List (List ℕ)) (pre post : List ℕ) (j : ℕ) (rest : List (List ℕ))
    (hb : searchBatches (min pages max_pages_setting) = done ++ (pre ++ j :: post) :: rest)
    (hpre : ∀ p ∈ done.flatten ++ pre, fetch_page_with_semaphore fetch p ≠ [])
    (hj : fetch j = .failure) :
    search_products fetch pages =
      sortByRatingDesc ((done.flatten ++ pre).flatMap (fetch_page_with_semaphore fetch)) := by
  have hdone : ∀ p ∈ done.flatten, fetch_page_with_semaphore fetch p ≠ [] :=
    fun p hp => hpre p (by simp [hp])
  have hpre' : ∀ p ∈ pre, fetch_page_with_semaphore fetch p ≠ [] :=
    fun p hp => hpre p (by simp [hp])
  have hj' : fetch_page_with_semaphore fetch j = [] := by
    simp [fetch_page_with_semaphore, hj]
  rw [search_products, hb, processBatches_skip fetch done _ [] hdone]
  simp only [List.nil_append, processBatches]
  rw [processBatch_stops fetch pre post j _ hpre' hj']
  simp [List.flatMap_append]

/-- C2, witness: the amended theorem applied to the concrete failing-page
scenario (`pages = 3`, the single batch is `[1, 2, 3]`, page 1 non-empty,
page 2 failing). -/
theorem c2_witness :
    search_products fetchTwoFails 3 =
      sortByRatingDesc ((List.flatten ([] : List (List ℕ)) ++ [1]).flatMap
        (fetch_page_with_semaphore fetchTwoFails)) :=
  c2_failed_page_terminates_early fetchTwoFails 3 [] [1] [3] 2 [] rfl (by decide) rfl

/-- When every attempt in the window fails, the retry loop returns no
records after sleeping the full backoff ladder (one sleep between each
pair of consecutive attempts). -/
theorem supplierRetryGo_all_fail (out : ℕ → Option (List Product)) :
    ∀ fuel a, (∀ i, a ≤ i → i < a + fuel → out i = none) →
      supplierRetryGo out fuel a =
        ([], (List.range' (a + 1) (fuel - 1)).map (fun n : ℕ => backoffStep * (n : ℚ))) := by
  intro fuel
  induction fuel with
  | zero => intro a _; simp [supplierRetryGo]
  | succ f ih =>
    intro a h
    have ha : out a = none := h a le_rfl (by omega)
    simp only [supplierRetryGo, ha]
    cases f with
    | zero => simp
    | succ g =>
      rw [if_neg (Nat.succ_ne_zero g), ih (a + 1) (fun i h1 h2 => h i (by omega) (by omega))]
      simp [List.range'_succ]

/-- When the first success happens on attempt `j` inside the window, the
retry loop returns that attempt's records after the backoff sleeps of the
`j` failed attempts and the trailing pacing sleep. -/
theorem supplierRetryGo_first_success (out : ℕ → Option (List Product)) :
    ∀ fuel a j ps, a ≤ j → j < a + fuel → out j = some ps →
      (∀ i, a ≤ i → i < j → out i = none) →
      supplierRetryGo out fuel a =
        (ps, (List.range' (a + 1) (j - a)).map (fun n : ℕ => backoffStep * (n : ℚ)) ++
          [backoffStep]) := by
  intro fuel
  induction fuel with
  | zero => intro a j ps haj hlt _ _; omega
  | succ f ih =>
    intro a j ps haj hlt hj hfail
    rcases Nat.eq_or_lt_of_le haj with heq | hlt'
    · subst heq
      simp [supplierRetryGo, hj]
    · have ha : out a = none := hfail a le_rfl hlt'
      simp only [supplierRetryGo, ha]
      cases f with
      | zero => exact absurd hlt (by omega)
      | succ g =>
        rw [if_neg (Nat.succ_ne_zero g), ih (a + 1) j ps (by omega) (by omega) hj
          (fun i h1 h2 => hfail i (by omega) h2)]
        have hsub : j - a = (j - (a + 1)) + 1 := by omega
        rw [hsub, List.range'_succ]
        simp

/-- C3.  In supplier-catalog mode a transiently failing page fetch is
retried for up to 30 attempts; between consecutive attempts the loop
sleeps the backoff step (0.6s) times the 1-based number of the attempt
that just failed, a linearly increasing ladder.  The page contributes
zero records only when all 30 attempts fail (having slept the 29-rung
ladder); if some attempt succeeds first, the page contributes exactly
that attempt's decoded records (followed by the fixed pacing sleep). -/
theorem c3_supplier_retry_policy (out : ℕ → Option (List Product)) :
    ((∀ i, i < supplier_retries → out i = none) →
      fetch_supplier_page_with_semaphore out =
        ([], (List.range' 1 29).map (fun n : ℕ => backoffStep * (n : ℚ)))) ∧
    (∀ j ps, j < supplier_retries → out j = some ps →
      (∀ i, i < j → out i = none) →
      fetch_supplier_page_with_semaphore out =
        (ps, (List.range' 1 j).map (fun n : ℕ => backoffStep * (n : ℚ)) ++ [backoffStep])) := by
  constructor
  · intro h
    exact supplierRetryGo_all_fail out supplier_retries 0 (fun i _ h2 => h i (by omega))
  · intro j ps hj hout hfail
    have := supplierRetryGo_first_success out supplier_retries 0 j ps (Nat.zero_le j)
      (by omega) hout (fun i _ h2 => hfail i h2)
    simpa using this

/-- C3, witness: the retry policy applied to the attempt behaviour that
fails on attempt 0 and succeeds on attempt 1 — the page contributes the
second attempt's records after one backoff sleep. -/
theorem c3_witness :
    fetch_supplier_page_with_semaphore supplierSecondTry =
      ([prodOne], (List.range' 1 1).map (fun n : ℕ => backoffStep * (n : ℚ)) ++ [backoffStep]) :=
  (c3_supplier_retry_policy supplierSecondTry).2 1 [prodOne] (by decide) rfl (by decide)

/-- C4.  For every reference product and candidate pool the cheaper list
holds only candidates priced at most the reference price, at least the
10% floor, in the reference's subject and with a different id; it is
sorted ascending by price with at most 3 entries.  The better-rated list
holds only candidates rated at least the reference rating, above the
floor, same subject, different id; sorted descending by rating, at most
3 entries.  Neither list ever holds the reference's own identity. -/
theorem c4_comparator_contract (product : Product) (cheap expensive : List Product) :
    (∀ p ∈ (execute_by_link product cheap expensive).1,
      p.price ≤ product.price ∧ product.price * (1 / 10) ≤ p.price ∧
        p.subjectId = product.subjectId ∧ p.id ≠ product.id) ∧
    List.Sorted priceLe (execute_by_link product cheap expensive).1 ∧
    (execute_by_link product cheap expensive).1.length ≤ 3 ∧
    (∀ p ∈ (execute_by_link product cheap expensive).2,
      product.rating ≤ p.rating ∧ product.price * (1 / 10) ≤ p.price ∧
        p.subjectId = product.subjectId ∧ p.id ≠ product.id) ∧
    List.Sorted ratingGe (execute_by_link product cheap expensive).2 ∧
    (execute_by_link product cheap expensive).2.length ≤ 3 := by
  have h1 : (execute_by_link product cheap expensive).1 =
      (List.insertionSort priceLe ((dedupById (cheap ++ expensive)).filter (fun p =>
        decide (p.price ≤ product.price ∧ product.price * (1 / 10) ≤ p.price ∧
          min_feedbacks ≤ p.feedbacks ∧ p.subjectId = product.subjectId ∧
          p.id ≠ product.id)))).take 3 := rfl
  have h2 : (execute_by_link product cheap expensive).2 =
      (List.insertionSort ratingGe ((dedupById (cheap ++ expensive)).filter (fun p =>
        decide (product.rating ≤ p.rating ∧ product.price * (1 / 10) ≤ p.price ∧
          min_feedbacks ≤ p.feedbacks ∧ p.subjectId = product.subjectId ∧
          p.id ≠ product.id)))).take 3 := rfl
  refine ⟨?_, ?_, ?_, ?_, ?_, ?_⟩
  · intro p hp
    rw [h1] at hp
    have hp1 := List.mem_of_mem_take hp
    have hp2 := (List.perm_insertionSort priceLe _).mem_iff.mp hp1
    have hp3 := of_decide_eq_true (List.mem_filter.mp hp2).2
    exact ⟨hp3.1, hp3.2.1, hp3.2.2.2.1, hp3.2.2.2.2⟩
  · rw [h1]
    exact (List.sorted_insertionSort priceLe _).sublist (List.take_sublist 3 _)
  · rw [h1, List.length_take]
    exact min_le_left _ _
  · intro p hp
    rw [h2] at hp
    have hp1 := List.mem_of_mem_take hp
    have hp2 := (List.perm_insertionSort ratingGe _).mem_iff.mp hp1
    have hp3 := of_decide_eq_true (List.mem_filter.mp hp2).2
    exact ⟨hp3.1, hp3.2.1, hp3.2.2.2.1, hp3.2.2.2.2⟩
  · rw [h2]
    exact (List.sorted_insertionSort ratingGe _).sublist (List.take_sublist 3 _)
  · rw [h2, List.length_take]
    exact min_le_left _ _

/-- Membership in the first-occurrence key list is membership in the ids. -/
theorem mem_firstOccIds (i : Int) : ∀ xs : List Int, i ∈ firstOccIds xs ↔ i ∈ xs := by
  intro xs
  induction xs with
  | nil => simp [firstOccIds]
  | cons x rest ih =>
    simp only [firstOccIds, List.mem_cons, List.mem_filter, decide_eq_true_eq]
    constructor
    · rintro (h | ⟨h1, _⟩)
      · exact Or.inl h
      · exact Or.inr (ih.mp h1)
    · rintro (h | h)
      · exact Or.inl h
      · by_cases hix : i = x
        · exact Or.inl hix
        · exact Or.inr ⟨ih.mpr h, hix⟩

/-- Appending an element extends the key list only when its id is new. -/
theorem firstOccIds_concat (i : Int) : ∀ xs : List Int,
    firstOccIds (xs ++ [i]) =
      if i ∈ xs then firstOccIds xs else firstOccIds xs ++ [i] := by
  intro xs
  induction xs with
  | nil => simp [firstOccIds]
  | cons x rest ih =>
    by_cases hmem : i ∈ rest
    · simp only [List.cons_append, firstOccIds, List.append_eq, ih, if_pos hmem,
        if_pos (List.mem_cons_of_mem x hmem)]
    · by_cases hix : i = x
      · subst hix
        simp only [List.cons_append, firstOccIds, List.append_eq, ih, if_neg hmem,
          if_pos (List.mem_cons_self i rest)]
        simp [List.filter_append]
      · have hnotc : i ∉ x :: rest := by simp [hmem, hix]
        simp only [List.cons_append, firstOccIds, List.append_eq, ih, if_neg hmem,
          if_neg hnotc]
        simp [List.filter_append, hix]

/-- The retained value for key `i` after appending `p`. -/
theorem lastWithId_concat (l : List Product) (p : Product) (i : Int) :
    lastWithId (l ++ [p]) i = if p.id = i then some p else lastWithId l i := by
  unfold lastWithId
  rw [List.filter_append]
  by_cases h : p.id = i
  · simp [h, List.getLast?_concat]
  · simp [h]

/-- An id occurring in the list has a retained value. -/
theorem lastWithId_isSome (l : List Product) (i : Int) (h : i ∈ l.map Product.id) :
    ∃ q, lastWithId l i = some q := by
  obtain ⟨p, hp, hpi⟩ := List.mem_map.mp h
  have hmem : p ∈ l.filter (fun q => decide (q.id = i)) :=
    List.mem_filter.mpr ⟨hp, by simp [hpi]⟩
  have hne : l.filter (fun q => decide (q.id = i)) ≠ [] := by
    intro he
    rw [he] at hmem
    exact absurd hmem (List.not_mem_nil p)
  unfold lastWithId
  rcases ho : (l.filter (fun q => decide (q.id = i))).getLast? with _ | q
  · exact absurd (List.getLast?_eq_none_iff.mp ho) hne
  · exact ⟨q, ho⟩

/-- The dict-comprehension fold builds the association list whose keys are
the ids in first-occurrence order and whose values are the last records
carrying each id. -/
theorem foldl_dictInsert_spec : ∀ l : List Product,
    l.foldl dictInsert [] =
      (firstOccIds (l.map Product.id)).filterMap
        (fun i => (lastWithId l i).map (fun q => (i, q))) := by
  intro l
  induction l using List.reverseRecOn with
  | nil => simp [firstOccIds]
  | append_singleton l p ih =>
    rw [List.foldl_append, List.foldl_cons, List.foldl_nil, ih]
    have hkeys : ((firstOccIds (l.map Product.id)).filterMap
        (fun i => (lastWithId l i).map (fun q => (i, q)))).map Prod.fst =
        firstOccIds (l.map Product.id) := by
      rw [List.map_filterMap]
      rw [List.filterMap_congr (g := some) ?_]
      · exact List.filterMap_some _
      · intro i hi
        obtain ⟨q, hq⟩ := lastWithId_isSome l i ((mem_firstOccIds i _).mp hi)
        simp [hq]
    rw [List.map_append]
    simp only [List.map_cons, List.map_nil]
    by_cases hmem : p.id ∈ l.map Product.id
    · rw [firstOccIds_concat, if_pos hmem]
      unfold dictInsert
      rw [if_pos (by rw [hkeys]; exact (mem_firstOccIds _ _).mpr hmem)]
      rw [List.map_filterMap]
      apply List.filterMap_congr
      intro i hi
      have hil : i ∈ l.map Product.id := (mem_firstOccIds i _).mp hi
      obtain ⟨q, hq⟩ := lastWithId_isSome l i hil
      rw [lastWithId_concat]
      by_cases hip : p.id = i
      · subst hip
        simp [hq]
      · rw [if_neg hip]
        simp [hq, Ne.symm hip]
    · rw [firstOccIds_concat, if_neg hmem]
      unfold dictInsert
      rw [if_neg (by rw [hkeys]; exact fun hc => hmem ((mem_firstOccIds _ _).mp hc))]
      rw [List.filterMap_append]
      congr 1
      · apply List.filterMap_congr
        intro i hi
        have hil : i ∈ l.map Product.id := (mem_firstOccIds i _).mp hi
        have hip : p.id ≠ i := fun he => hmem (he ▸ hil)
        rw [lastWithId_concat, if_neg hip]
      · rw [show [p.id].filterMap (fun i => (lastWithId (l ++ [p]) i).map (fun q => (i, q))) =
            _ from List.filterMap_cons _ _ _]
        rw [lastWithId_concat, if_pos rfl]
        simp

/-- C5, counterexample.  The two records `dupFirst` and `dupSecond` share
id 1, `dupFirst` first in the concatenation; the claim says the first
occurrence is kept.  The Python dict comprehension instead keeps the
later record's value (at the first occurrence's position): the pool is
exactly the later record and the first occurrence is absent. -/
theorem c5_counterexample :
    dedupById [dupFirst, dupSecond] = [dupSecond] ∧
    dupFirst ∉ dedupById [dupFirst, dupSecond] := by
  decide

/-- C5, amended.  The candidate pool is the id-keyed deduplication of the
concatenated searches in which, for each id, the record kept is the LAST
occurrence with that id, placed at the position of the id's first
occurrence (Python dict comprehension semantics: re-assigning a key
overwrites its value but keeps its insertion position). -/
theorem c5_dedup_keeps_last_value_at_first_position (l : List Product) :
    dedupById l = (firstOccIds (l.map Product.id)).filterMap (lastWithId l) := by
  unfold dedupById
  rw [foldl_dictInsert_spec, List.map_filterMap]
  apply List.filterMap_congr
  intro i _
  cases h : lastWithId l i <;> simp [h]

/-- C6.  The poisoned-entry rule the claim states is implemented at
wb_parser.py lines 82-88 and matches the spec, but it is unreachable: the
cache read at line 80 passes the keyword `model=Product` to
`CacheService.get`, whose parameter list is `(self, key)`, so every
invocation of `get_product_by_link` raises `TypeError` before the cached
value is examined.  The model evaluates to the raised error with no
eviction and zero upstream calls on every input, in particular at the
claim's scenario (a cached record lacking `root`, a valid link, an
available upstream page), where the claim requires an eviction and
exactly one fresh fetch. -/
theorem c6_cache_get_typeerror :
    cacheGetAcceptsModelKwarg = false ∧
    (∀ (cached : Option (List Product)) (linkId : Option Int) (upstream : Option RawPage),
      get_product_by_link cached linkId upstream = ⟨.error (), false, 0⟩) ∧
    get_product_by_link (some [cachedNoRoot]) (some 9) (some goodPage) =
      ⟨.error (), false, 0⟩ :=
  ⟨rfl, fun _ _ _ => rfl, rfl⟩

/-- Items with a non-empty (or absent) sizes list decode without raising,
to the item's successful decode. -/
theorem decodeItem_ok (item : RawItem) (hs : item.sizes ≠ some []) :
    decodeItem item = .ok (decodedItem item) := by
  rcases hsz : item.sizes with _ | (_ | ⟨s, t⟩)
  · rcases hid : item.id with _ | pid
    · simp [decodeItem, decodedItem, parsePriceData, hsz, hid]
    · by_cases hz : pid = 0 <;>
        simp [decodeItem, decodedItem, parsePriceData, hsz, hid, hz]
  · exact absurd hsz hs
  · rcases hid : item.id with _ | pid
    · simp [decodeItem, decodedItem, parsePriceData, hsz, hid]
    · by_cases hz : pid = 0 <;>
        simp [decodeItem, decodedItem, parsePriceData, hsz, hid, hz]

/-- The decoder loop succeeds on a list of items with non-empty sizes,
returning the successful decodes in order. -/
theorem parseItems_ok : ∀ l : List RawItem, (∀ item ∈ l, item.sizes ≠ some []) →
    parseItems l = .ok (l.filterMap decodedItem) := by
  intro l
  induction l with
  | nil => intro _; simp [parseItems]
  | cons item rest ih =>
    intro h
    have hs := decodeItem_ok item (h item (by simp))
    have hrest := ih (fun it hit => h it (by simp [hit]))
    simp only [parseItems, hs, hrest, List.filterMap_cons]
    cases hd : decodedItem item <;> rfl

/-- C7, counterexample.  The claim says the decoder never raises and skips
exactly the items lacking the id field.  Both parts fail: an item whose
`sizes` key holds an empty list makes the decoder raise `IndexError`
(surfacing as a decode failure), and an item whose id field is present
but zero is skipped even though its identity field is not missing. -/
theorem c7_counterexample :
    parse_products badSizesPage = .error () ∧ parse_products zeroIdPage = .ok [] :=
  ⟨rfl, rfl⟩

/-- C7, amended.  For every raw page whose items' `sizes` field, when
present, is non-empty, the decoder returns a (possibly empty) list
without raising; it skips exactly those items whose id field is missing
or zero (Python-falsy), and every returned record has a non-zero id. -/
theorem c7_decoder_amended (page : RawPage)
    (h : ∀ item ∈ pageItems page, item.sizes ≠ some []) :
    parse_products page = .ok ((pageItems page).filterMap decodedItem) ∧
    ∀ p ∈ (pageItems page).filterMap decodedItem, p.id ≠ 0 := by
  constructor
  · unfold parse_products
    unfold pageItems at h ⊢
    cases heff : effectiveProducts page with
    | notList => simp
    | items l =>
      rw [heff] at h
      exact parseItems_ok l h
  · intro p hp
    obtain ⟨item, _, hdec⟩ := List.mem_filterMap.mp hp
    unfold decodedItem at hdec
    rcases hid : item.id with _ | pid
    · rw [hid] at hdec
      exact absurd hdec (by simp)
    · rw [hid] at hdec
      by_cases hz : pid = 0
      · simp [hz] at hdec
      · simp only [if_neg hz, Option.some.injEq] at hdec
        rw [← hdec]
        simpa [mkProductFromItem] using hz

/-- C7, witness: the amended decoder contract applied to a concrete page
holding one item with a present id and no sizes key. -/
theorem c7_witness :
    (∀ item ∈ pageItems goodPage, item.sizes ≠ some []) ∧
    parse_products goodPage = .ok ((pageItems goodPage).filterMap decodedItem) :=
  ⟨by decide, (c7_decoder_amended goodPage (by decide)).1⟩

/-- C8.  A `redis.RedisError` raised by the cache store during a write is
logged and swallowed: `CacheService.set` returns normally, so a cache
store failure never propagates to the surrounding fetch operation (only
a non-store exception, e.g. in serialization, is re-raised). -/
theorem c8_cache_write_redis_error_swallowed (key : String) (value : List Product) (ttl : ℕ) :
    cache_set key value ttl .redisError = .ok () := rfl

/-- One-step unfolding of the feedback pagination loop. -/
theorem feedbacksLoop_eq (pd : ℕ → Option (List Feedback × ℕ)) (page : ℕ) (acc : List Feedback) :
    feedbacksLoop pd page acc =
      match pd page with
      | none => (.error (), 1)
      | some (fb, cnt) =>
        if fb.isEmpty then (.ok acc, 1)
        else
          if cnt ≤ (acc ++ fb).length ∨ feedbacks_max_pages < page + 1 then
            (.ok (acc ++ fb), 1)
          else
            ((feedbacksLoop pd (page + 1) (acc ++ fb)).1,
              (feedbacksLoop pd (page + 1) (acc ++ fb)).2 + 1) := by
  conv_lhs => rw [feedbacksLoop]
  rcases pd page with _ | ⟨fb, cnt⟩
  · rfl
  · simp only [dite_eq_ite]

/-- The accumulated feedback of pages 1..n+1 extends that of pages 1..n. -/
theorem fbAccUpTo_succ (pd : ℕ → Option (List Feedback × ℕ)) (n : ℕ) :
    fbAccUpTo pd (n + 1) = fbAccUpTo pd n ++ fbPage pd (n + 1) := by
  unfold fbAccUpTo
  rw [List.range'_concat 1 n]
  simp [List.flatMap_append, Nat.one_mul, Nat.add_comm]

/-- Characterization of the feedback loop from any start page: it fetches
consecutive pages up to the first stop page `n ≤ 100`, returns the
accumulated decode (or the raised error of page `n`), and no earlier
page satisfies a stop condition. -/
theorem feedbacksLoop_spec (pd : ℕ → Option (List Feedback × ℕ)) :
    ∀ k page, page + k = 101 → 1 ≤ page → page ≤ 100 →
      ∃ n, page ≤ n ∧ n ≤ 100 ∧
        feedbacksLoop pd page (fbAccUpTo pd (page - 1)) =
          ((if pd n = none then .error () else .ok (fbAccUpTo pd n)), n - page + 1) ∧
        fbStop pd n ∧ (∀ m, page ≤ m → m < n → ¬ fbStop pd m) := by
  intro k
  induction k with
  | zero => intro page hpk _ _; omega
  | succ k ih =>
    intro page hpk h1 h100
    rw [feedbacksLoop_eq]
    rcases hpd : pd page with _ | ⟨fb, cnt⟩
    · refine ⟨page, le_rfl, h100, ?_, Or.inl hpd, fun m hm1 hm2 => by omega⟩
      simp [hpd]
    · have hfb : fbPage pd page = fb := by simp [fbPage, hpd]
      have hcnt : fbCount pd page = cnt := by simp [fbCount, hpd]
      have hp1 : page - 1 + 1 = page := by omega
      have hacc : fbAccUpTo pd (page - 1) ++ fb = fbAccUpTo pd page := by
        rw [← hfb]
        conv_rhs => rw [← hp1]
        rw [fbAccUpTo_succ pd (page - 1), hp1]
      by_cases hempty : fb.isEmpty
      · have hfbnil : fb = [] := List.isEmpty_iff.mp hempty
        refine ⟨page, le_rfl, h100, ?_, Or.inr (Or.inl (by rw [hfb, hfbnil])),
          fun m hm1 hm2 => by omega⟩
        have hsame : fbAccUpTo pd page = fbAccUpTo pd (page - 1) := by
          rw [← hacc, hfbnil, List.append_nil]
        simp [hpd, hempty, hsame]
      · by_cases hguard : cnt ≤ (fbAccUpTo pd (page - 1) ++ fb).length ∨
            feedbacks_max_pages < page + 1
        · refine ⟨page, le_rfl, h100, ?_, ?_, fun m hm1 hm2 => by omega⟩
          · simp only [hpd]
            rw [if_neg (by simpa using hempty), if_pos hguard]
            simp [hpd, hacc]
          · rcases hguard with hg | hg
            · refine Or.inr (Or.inr (Or.inl ?_))
              rw [hcnt, ← hacc]
              exact hg
            · have hpage : page = 100 := by
                simp only [feedbacks_max_pages] at hg
                omega
              exact Or.inr (Or.inr (Or.inr hpage))
        · have h99 : page ≤ 99 := by
            rcases not_or.mp hguard with ⟨_, hcap⟩
            simp only [feedbacks_max_pages, not_lt] at hcap
            omega
          obtain ⟨n, hn1, hn2, hn3, hn4, hn5⟩ := ih (page + 1) (by omega) (by omega) (by omega)
          rw [show page + 1 - 1 = page from rfl] at hn3
          refine ⟨n, by omega, hn2, ?_, hn4, ?_⟩
          · simp only [hpd]
            rw [if_neg (by simpa using hempty), if_neg hguard]
            rw [hacc, hn3]
            refine Prod.ext rfl ?_
            simp only
            omega
          · intro m hm1 hm2
            rcases Nat.eq_or_lt_of_le hm1 with heq | hgt
            · subst heq
              intro hstop
              rcases hstop with hs | hs | hs | hs
              · rw [hpd] at hs
                exact Option.noConfusion hs
              · rw [hfb] at hs
                exact hempty (by simp [hs])
              · rw [hcnt, ← hacc] at hs
                exact (not_or.mp hguard).1 hs
              · omega
            · exact hn5 m hgt hm2

/-- C9.  For every upstream behaviour the feedback fetch terminates after
some number `n ≤ 100` of consecutive pages starting at page 1; page `n`
is the first page satisfying a stop condition (a raised fetch or decode
error, a page decoding to zero feedbacks, the accumulated feedback count
reaching the page's upstream-declared total, or the 100-page cap), no
earlier page satisfies one, and the returned value is the accumulation of
the decoded pages (or the error raised at page `n`). -/
theorem c9_feedbacks_termination (pd : ℕ → Option (List Feedback × ℕ)) :
    ∃ n, 1 ≤ n ∧ n ≤ 100 ∧ (get_feedbacks pd).2 = n ∧
      (get_feedbacks pd).1 =
        (if pd n = none then .error () else .ok (fbAccUpTo pd n)) ∧
      fbStop pd n ∧ ∀ m, 1 ≤ m → m < n → ¬ fbStop pd m := by
  obtain ⟨n, h1, h2, h3, h4, h5⟩ := feedbacksLoop_spec pd 100 1 rfl le_rfl (by omega)
  rw [show (1:ℕ) - 1 = 0 from rfl, show fbAccUpTo pd 0 = [] from rfl] at h3
  refine ⟨n, h1, h2, ?_, ?_, h4, h5⟩
  · show (feedbacksLoop pd 1 []).2 = n
    rw [h3]
    simp only
    omega
  · show (feedbacksLoop pd 1 []).1 = _
    rw [h3]

/-- A left fold of `max` never goes below its initial value. -/
theorem foldl_max_init_le : ∀ (ys : List ℚ) (a : ℚ), a ≤ ys.foldl max a := by
  intro ys
  induction ys with
  | nil => intro a; exact le_rfl
  | cons y rest ih => intro a; exact le_trans (le_max_left a y) (ih (max a y))

/-- Every member of the folded list is below the fold of `max`. -/
theorem mem_le_foldl_max : ∀ (ys : List ℚ) (a x : ℚ), x ∈ ys → x ≤ ys.foldl max a := by
  intro ys
  induction ys with
  | nil => intro a x hx; exact absurd hx (List.not_mem_nil x)
  | cons y rest ih =>
    intro a x hx
    rcases List.mem_cons.mp hx with rfl | hx'
    · exact le_trans (le_max_right a x) (foldl_max_init_le rest (max a x))
    · exact ih (max a y) x hx'

/-- Python `max` bounds every element of the list. -/
theorem le_listMax (l : List ℚ) (x : ℚ) (h : x ∈ l) : x ≤ listMax l := by
  cases l with
  | nil => exact absurd h (List.not_mem_nil x)
  | cons y rest =>
    rcases List.mem_cons.mp h with rfl | hx'
    · exact foldl_max_init_le rest x
    · exact mem_le_foldl_max rest y x hx'

/-- The maximum of a non-empty list of non-negative prices is non-negative. -/
theorem listMax_nonneg (l : List ℚ) (hne : l ≠ []) (h : ∀ p ∈ l, 0 ≤ p) :
    0 ≤ listMax l := by
  cases l with
  | nil => exact absurd rfl hne
  | cons y rest => exact le_trans (h y (by simp)) (le_listMax (y :: rest) y (by simp))

/-- The bucket width is positive on non-empty non-negative prices. -/
theorem distStep_pos (prices : List ℚ) (hne : prices ≠ []) (h : ∀ p ∈ prices, 0 ≤ p) :
    0 < distStep prices := by
  unfold distStep
  exact div_pos (by linarith [listMax_nonneg prices hne h]) (by norm_num)

/-- A non-negative price lies in bucket `i` exactly when `i` is the floor
of `price / step`. -/
theorem inBucket_iff (step p : ℚ) (i : ℕ) (hstep : 0 < step) (hp : 0 ≤ p) :
    inBucket step i p = true ↔ i = ⌊p / step⌋₊ := by
  have hdiv : 0 ≤ p / step := div_nonneg hp hstep.le
  rw [inBucket, decide_eq_true_eq]
  constructor
  · rintro ⟨h1, h2⟩
    refine ((Nat.floor_eq_iff hdiv).mpr ⟨?_, ?_⟩).symm
    · exact (le_div_iff₀ hstep).mpr h1
    · exact (div_lt_iff₀ hstep).mpr h2
  · intro hi
    have := (Nat.floor_eq_iff hdiv).mp hi.symm
    exact ⟨(le_div_iff₀ hstep).mp this.1, (div_lt_iff₀ hstep).mp this.2⟩

/-- The first-match search over the five buckets finds index `i₀` when
`i₀ < 5` is the unique matching bucket. -/
theorem find_range_five (i₀ : ℕ) (h : i₀ < 5) :
    (List.range 5).find? (fun i => decide (i = i₀)) = some i₀ := by
  interval_cases i₀ <;> decide

/-- The bucket search returns the floor index for in-range prices. -/
theorem bucketOf_eq (step p : ℚ) (hstep : 0 < step) (hp : 0 ≤ p) (hlt : p < 5 * step) :
    bucketOf step p = some ⌊p / step⌋₊ ∧ ⌊p / step⌋₊ < 5 := by
  have hdiv : 0 ≤ p / step := div_nonneg hp hstep.le
  have hfive : ⌊p / step⌋₊ < 5 := by
    rw [Nat.floor_lt hdiv]
    rw [div_lt_iff₀ hstep]
    calc p < 5 * step := hlt
    _ = (5 : ℚ) * step := by norm_num
  refine ⟨?_, hfive⟩
  unfold bucketOf
  have hfun : (fun i : ℕ => decide ((i : ℚ) * step ≤ p ∧ p < ((i : ℚ) + 1) * step)) =
      fun i : ℕ => decide (i = ⌊p / step⌋₊) := by
    funext i
    have hiff := inBucket_iff step p i hstep hp
    rw [inBucket, decide_eq_true_eq] at hiff
    exact decide_eq_decide.mpr hiff
  rw [hfun]
  exact find_range_five _ hfive

/-- A list of length five equals the tabulation of its entries. -/
theorem five_ext (d : List ℕ) (h : d.length = 5) :
    (List.range 5).map (fun i => d.getD i 0) = d := by
  apply List.ext_getElem
  · simp [h]
  · intro i h1 h2
    simp only [List.getElem_map, List.getElem_range]
    exact List.getD_eq_getElem d 0 (by omega)

/-- Incrementing a counter leaves the counter read at that index. -/
theorem getD_set_self (d : List ℕ) (i v : ℕ) (h : i < d.length) :
    (d.set i v).getD i 0 = v := by
  rw [List.getD_eq_getElem?_getD]
  simp [List.getElem?_set_self h]

/-- Incrementing one counter does not touch the others. -/
theorem getD_set_ne (d : List ℕ) (i j v : ℕ) (h : i ≠ j) :
    (d.set i v).getD j 0 = d.getD j 0 := by
  rw [List.getD_eq_getElem?_getD, List.getD_eq_getElem?_getD]
  simp [List.getElem?_set_ne h]

/-- The counting loop computes, per bucket, the initial counter plus the
number of prices falling in that bucket. -/
theorem distFold_spec (step : ℚ) (hstep : 0 < step) :
    ∀ (l : List ℚ) (init : List ℕ), init.length = 5 →
      (∀ p ∈ l, 0 ≤ p ∧ p < 5 * step) →
      distFold step init l =
        (List.range 5).map (fun i => init.getD i 0 + (l.filter (inBucket step i)).length) := by
  intro l
  induction l with
  | nil =>
    intro init hlen _
    simp only [distFold, List.foldl_nil, List.filter_nil, List.length_nil, Nat.add_zero]
    exact (five_ext init hlen).symm
  | cons p rest ih =>
    intro init hlen hb
    obtain ⟨hp0, hp5⟩ := hb p (by simp)
    obtain ⟨hfind, hi5⟩ := bucketOf_eq step p hstep hp0 hp5
    have hstep1 : distFold step init (p :: rest) =
        distFold step (init.set ⌊p / step⌋₊ (init.getD ⌊p / step⌋₊ 0 + 1)) rest := by
      simp [distFold, hfind]
    rw [hstep1, ih _ (by simp [hlen]) (fun q hq => hb q (by simp [hq]))]
    apply List.map_congr_left
    intro i hi
    have hi5' : i < 5 := List.mem_range.mp hi
    by_cases hii : i = ⌊p / step⌋₊
    · subst hii
      rw [getD_set_self init ⌊p / step⌋₊ _ (by omega)]
      have hpin : inBucket step ⌊p / step⌋₊ p = true :=
        (inBucket_iff step p ⌊p / step⌋₊ hstep hp0).mpr rfl
      rw [List.filter_cons, if_pos hpin]
      simp only [List.length_cons]
      omega
    · rw [getD_set_ne init _ i _ (fun he => hii he.symm)]
      have hpout : inBucket step i p = false := by
        cases hbp : inBucket step i p with
        | false => rfl
        | true => exact absurd ((inBucket_iff step p i hstep hp0).mp hbp) hii
      rw [List.filter_cons, if_neg (by simp [hpout])]

/-- Summing a pointwise sum of two tabulated maps splits. -/
theorem sum_map_add_nat (idx : List ℕ) (f g : ℕ → ℕ) :
    (idx.map (fun i => f i + g i)).sum = (idx.map f).sum + (idx.map g).sum := by
  induction idx with
  | nil => simp
  | cons x xs ih =>
    simp only [List.map_cons, List.sum_cons, ih]
    omega

/-- An indicator sums to zero over indices missing its target. -/
theorem sum_indicator_not_mem : ∀ (idx : List ℕ) (i₀ : ℕ), i₀ ∉ idx →
    (idx.map (fun i => if i = i₀ then 1 else 0)).sum = 0 := by
  intro idx
  induction idx with
  | nil => intro i₀ _; rfl
  | cons x xs ih =>
    intro i₀ h
    have hx : x ≠ i₀ := fun he => h (by simp [he])
    simp only [List.map_cons, List.sum_cons, if_neg hx, Nat.zero_add]
    exact ih i₀ (fun hc => h (by simp [hc]))

/-- An indicator sums to one over duplicate-free indices containing its
target. -/
theorem sum_indicator_nodup : ∀ (idx : List ℕ) (i₀ : ℕ), idx.Nodup → i₀ ∈ idx →
    (idx.map (fun i => if i = i₀ then 1 else 0)).sum = 1 := by
  intro idx
  induction idx with
  | nil => intro i₀ _ h; exact absurd h (List.not_mem_nil i₀)
  | cons x xs ih =>
    intro i₀ hnd hmem
    rcases List.mem_cons.mp hmem with rfl | hmem'
    · simp only [List.map_cons, List.sum_cons]
      rw [sum_indicator_not_mem xs i₀ (List.nodup_cons.mp hnd).1]
      simp
    · have hx : x ≠ i₀ := fun he => (List.nodup_cons.mp hnd).1 (he ▸ hmem')
      simp only [List.map_cons, List.sum_cons, if_neg hx, Nat.zero_add]
      exact ih i₀ (List.nodup_cons.mp hnd).2 hmem'

/-- Every in-range price lands in exactly one bucket, so the five bucket
counts sum to the number of prices. -/
theorem sum_bucket_lengths (step : ℚ) (hstep : 0 < step) :
    ∀ l : List ℚ, (∀ p ∈ l, 0 ≤ p ∧ p < 5 * step) →
      ((List.range 5).map (fun i => (l.filter (inBucket step i)).length)).sum = l.length := by
  intro l
  induction l with
  | nil => simp
  | cons p rest ih =>
    intro hb
    obtain ⟨hp0, hp5⟩ := hb p (by simp)
    have hi5 : ⌊p / step⌋₊ < 5 := (bucketOf_eq step p hstep hp0 hp5).2
    have hpoint : ∀ i ∈ List.range 5,
        ((p :: rest).filter (inBucket step i)).length =
          (if i = ⌊p / step⌋₊ then 1 else 0) + (rest.filter (inBucket step i)).length := by
      intro i _
      by_cases hii : i = ⌊p / step⌋₊
      · rw [List.filter_cons, if_pos ((inBucket_iff step p i hstep hp0).mpr hii), if_pos hii]
        simp [Nat.add_comm]
      · have hpout : inBucket step i p = false := by
          cases hbp : inBucket step i p with
          | false => rfl
          | true => exact absurd ((inBucket_iff step p i hstep hp0).mp hbp) hii
        rw [List.filter_cons, if_neg (by simp [hpout]), if_neg hii]
        simp
    rw [List.map_congr_left hpoint, sum_map_add_nat,
      sum_indicator_nodup (List.range 5) _ (List.nodup_range 5) (List.mem_range.mpr hi5),
      ih (fun q hq => hb q (by simp [hq]))]
    simp [Nat.add_comm]

/-- C10.  On a non-empty list of non-negative prices the histogram is
exactly the five equal-width buckets of width `(max + 100) / 5` spanning
zero to `max + 100`: the i-th counter counts the prices `p` with
`i * step ≤ p < (i + 1) * step`, and the five counters sum to the number
of prices — every price is counted in exactly one bucket. -/
theorem c10_price_histogram (prices : List ℚ) (hne : prices ≠ [])
    (hpos : ∀ p ∈ prices, 0 ≤ p) :
    calculate_price_distribution prices =
      (List.range 5).map (fun i =>
        (prices.filter (inBucket (distStep prices) i)).length) ∧
    (calculate_price_distribution prices).sum = prices.length := by
  have hstep : 0 < distStep prices := distStep_pos prices hne hpos
  have hbound : ∀ p ∈ prices, 0 ≤ p ∧ p < 5 * distStep prices := by
    intro p hp
    refine ⟨hpos p hp, ?_⟩
    have h1 : p ≤ listMax prices := le_listMax prices p hp
    have h2 : 5 * distStep prices = listMax prices + 100 := by
      unfold distStep
      rw [mul_comm, div_mul_cancel₀ _ (by norm_num : (5:ℚ) ≠ 0)]
    linarith
  have hrep : ∀ i : ℕ, (List.replicate 5 (0:ℕ)).getD i 0 = 0 := by
    intro i
    rw [List.getD_eq_getElem?_getD, List.getElem?_replicate]
    by_cases h : i < 5 <;> simp [h]
  have hmain : calculate_price_distribution prices =
      (List.range 5).map (fun i =>
        (prices.filter (inBucket (distStep prices) i)).length) := by
    unfold calculate_price_distribution
    rw [distFold_spec (distStep prices) hstep prices _ (by simp) hbound]
    apply List.map_congr_left
    intro i _
    rw [hrep i, Nat.zero_add]
  exact ⟨hmain, by rw [hmain]; exact sum_bucket_lengths _ hstep prices hbound⟩

/-- C10, witness: the histogram contract applied to the concrete price list
with two prices, 5 and 250 (max 250, step 70). -/
theorem c10_witness :
    ([(5:ℚ), 250] ≠ ([] : List ℚ)) ∧ (∀ p ∈ [(5:ℚ), 250], 0 ≤ p) ∧
    calculate_price_distribution [(5:ℚ), 250] =
      (List.range 5).map (fun i =>
        (([(5:ℚ), 250]).filter (inBucket (distStep [(5:ℚ), 250]) i)).length) ∧
    (calculate_price_distribution [(5:ℚ), 250]).sum = 2 := by
  refine ⟨by decide, by decide, ?_, ?_⟩
  · exact (c10_price_histogram [(5:ℚ), 250] (by decide) (by decide)).1
  · have h := (c10_price_histogram [(5:ℚ), 250] (by decide) (by decide)).2
    simpa using h

end WB
